import Mathlib

/-!
# Verification of the Notesnook command-palette core

Shallow embedding of `apps/web/src/dialogs/command-palette/command-palette-dialog.tsx`.

Conventions of the embedding:
* JavaScript arrays become `List`; array indexing `a[i]` becomes `List.get?`
  (`undefined` is `none`).
* The persisted key-value store (`Config.get`/`Config.set` under the key
  `"commandPalette:recent"`) is threaded explicitly: a function that reads the
  store takes it as an argument, a function that writes it returns the new
  store value.
* A JavaScript `TypeError` (reading a property of `undefined`) is modelled by
  an `Option`-returning function producing `none`.
* Raw query strings are modelled as `List Char`; `String.prototype.trim`,
  `substring(1)` and `startsWith(">")` act on the character sequence.
-/

namespace CommandPalette

/-- The `type` field of a `Command` (the string union in the source). -/
inductive CommandType where
  | command
  | commandDynamic
  | note
  | notebook
  | tag
  | reminder
deriving DecidableEq, Repr

/-- The `Command` interface from the source file. -/
structure Command where
  id : String
  title : String
  highlightedTitle : Option String := none
  type : CommandType
  group : String
deriving DecidableEq, Repr

/-- The two-axis cursor (`Coords` in the source): `x` is the column, `y` the row. -/
structure Coords where
  x : Nat
  y : Nat
deriving DecidableEq, Repr

/-! ## Query classifier -/

/-- Model of `isCommandMode` from the source: `query.startsWith(">")`, i.e. the first
character of the raw query is the sentinel. -/
def isCommandMode (query : List Char) : Bool :=
  query.head? = some '>'

/-- Character-level model of `String.prototype.trim`: drop whitespace from
both ends. -/
def jsTrim (s : List Char) : List Char :=
  ((s.dropWhile Char.isWhitespace).reverse.dropWhile Char.isWhitespace).reverse

/-- Model of `prepareQuery` from the source:
`isCommandMode(query) ? query.substring(1).trim() : query.trim()`. -/
def prepareQuery (query : List Char) : List Char :=
  if isCommandMode query then jsTrim (query.drop 1) else jsTrim query

/-! ## Recency cache -/

/-- Model of `getRecentCommands`: `Config.get("commandPalette:recent", [])` with the
store threaded explicitly. An absent or corrupt store is the empty list. -/
def getRecentCommands (store : List Command) : List Command :=
  store

/-- Model of `addRecentCommand` from the source. `findIndex` + `splice(index, 1)`
removes the first entry sharing the id (`List.eraseP`); `unshift` prepends the
command with `group` forced to `"recent"` and `highlightedTitle` cleared;
`slice(0, 3)` truncates when the list exceeds 3 entries. Returns the newly
persisted store. -/
def addRecentCommand (command : Command) (store : List Command) : List Command :=
  if command.type = CommandType.commandDynamic then store
  else
    let commands := (getRecentCommands store).eraseP (fun c => c.id == command.id)
    let commands := { command with highlightedTitle := none, group := "recent" } :: commands
    if commands.length > 3 then commands.take 3 else commands

/-- Model of `removeRecentCommand` from the source: erase the first entry with the
given id; when no entry matches, the store is not rewritten (the persisted
value is unchanged either way). -/
def removeRecentCommand (id : String) (store : List Command) : List Command :=
  (getRecentCommands store).eraseP (fun c => c.id == id)

/-! ## Navigation state machine

The four arrow handlers read `commands[selected.y]` without a bounds check; in
JavaScript, when the list is empty (or the row is out of range) that read
yields `undefined` and the subsequent `.group` access throws a `TypeError`.
The embedding returns `none` on exactly those paths. -/

/-- Model of `moveSelectionDown` from the source. `nextIndex = (selected.y + 1) %
commands.length`; the column is preserved only when both the current and the
next command have group `"recent"`. `none` models the `TypeError` thrown when
`commands[selected.y]` is `undefined`. -/
def moveSelectionDown (selected : Coords) (commands : List Command) : Option Coords :=
  match commands[selected.y]? with
  | none => none
  | some currentCommand =>
    let nextIndex := (selected.y + 1) % commands.length
    if currentCommand.group = "recent" then
      match commands[nextIndex]? with
      | none => none
      | some nextCommand =>
        if nextCommand.group = "recent" then some { x := selected.x, y := nextIndex }
        else some { x := 0, y := nextIndex }
    else some { x := 0, y := nextIndex }

/-- Model of `moveSelectionUp` from the source: `nextIndex = (selected.y - 1 +
commands.length) % commands.length` (written over `Nat` as `selected.y +
commands.length - 1`, equal whenever the list is non-empty). -/
def moveSelectionUp (selected : Coords) (commands : List Command) : Option Coords :=
  match commands[selected.y]? with
  | none => none
  | some currentCommand =>
    let nextIndex := (selected.y + commands.length - 1) % commands.length
    if currentCommand.group = "recent" then
      match commands[nextIndex]? with
      | none => none
      | some nextCommand =>
        if nextCommand.group = "recent" then some { x := selected.x, y := nextIndex }
        else some { x := 0, y := nextIndex }
    else some { x := 0, y := nextIndex }

/-- Model of `moveSelectionRight` from the source: the identity unless the current
row's group is `"recent"`, in which case the column toggles modulo 2. -/
def moveSelectionRight (selected : Coords) (commands : List Command) : Option Coords :=
  match commands[selected.y]? with
  | none => none
  | some currentCommand =>
    if currentCommand.group ≠ "recent" then some selected
    else some { x := (selected.x + 1) % 2, y := selected.y }

/-- Model of `moveSelectionLeft` from the source: symmetric toggle,
`(selected.x - 1 + 2) % 2` over JavaScript numbers, i.e. `selected.x + 1`
modulo 2 for `selected.x < 2` (written as in the source over `Nat`). -/
def moveSelectionLeft (selected : Coords) (commands : List Command) : Option Coords :=
  match commands[selected.y]? with
  | none => none
  | some currentCommand =>
    if currentCommand.group ≠ "recent" then some selected
    else some { x := (selected.x + 2 - 1) % 2, y := selected.y }

/-- Result of the `Enter` branch of the dialog's `onKeyDown` handler: the new
cursor, the new persisted recency store, the new live command list, and
whether the palette closes (`props.onClose(false)`). Invoking the resolved
action is an external side effect (navigation/session opening) and is not
part of this state. -/
structure ActivateResult where
  newSelected : Coords
  newStore : List Command
  newCommands : List Command
  closePalette : Bool
deriving DecidableEq, Repr

/-- The `Enter` branch of `onKeyDown`. When `commands[selected.y]` is absent
the handler returns immediately; at column 1 it removes the command from the
recency store and filters it out of the live list (producing a new list, not
mutating in place) without closing; at column 0 it records the command as
recent and closes the palette. -/
def activate (selected : Coords) (commands : List Command) (store : List Command) :
    ActivateResult :=
  match commands[selected.y]? with
  | none =>
    { newSelected := selected, newStore := store, newCommands := commands
      closePalette := false }
  | some command =>
    if selected.x = 1 then
      { newSelected := { x := 0, y := 0 }
        newStore := removeRecentCommand command.id store
        newCommands := commands.filter (fun c => c.id != command.id)
        closePalette := false }
    else
      { newSelected := { x := 0, y := 0 }
        newStore := addRecentCommand command store
        newCommands := commands
        closePalette := true }

/-- One externally triggered recency-cache mutation. -/
inductive CacheOp where
  | add (c : Command)
  | remove (id : String)
deriving Repr

/-- Apply a cache operation to the persisted store. -/
def applyOp (store : List Command) : CacheOp → List Command
  | CacheOp.add c => addRecentCommand c store
  | CacheOp.remove id => removeRecentCommand id store

/-- Apply a sequence of `add`/`remove` operations, oldest first. -/
def applyOps (ops : List CacheOp) (store : List Command) : List Command :=
  ops.foldl applyOp store

/-- The capacity invariant of the recency cache: at most 3 entries and no two
entries share an id. -/
def cacheInv (store : List Command) : Prop :=
  store.length ≤ 3 ∧ (store.map Command.id).Nodup

instance (store : List Command) : Decidable (cacheInv store) := by
  unfold cacheInv; infer_instance

/-! ## Source aggregator (command mode)

The static `COMMANDS` registry is imported from `./commands`, outside this
excerpt. An entry carries `title`/`group` that may be function-valued and an
optional `hidden` predicate; `resolveCommands` resolves function-valued
fields by invocation. The embedding represents a registry entry by those
resolved values: `title` and `group` are the invocation results (`none` for
`undefined`), `hidden` is the predicate's result (`false` when the predicate
is absent). -/

/-- One entry of the static command registry, in resolved form. -/
structure RegistryCommand where
  id : String
  title : Option String
  group : Option String
  hidden : Bool
  dynamic : Bool
deriving DecidableEq, Repr

/-- One step of the `reduce` in `resolveCommands`: skip the entry when a
command with its id was already retained (`acc.find`); skip it when it is
hidden or its resolved group or title is `undefined`; otherwise append the
resolved command. -/
def resolveStep (acc : List Command) (command : RegistryCommand) : List Command :=
  if (acc.find? (fun c => c.id == command.id)).isSome then acc
  else
    match command.group, command.title with
    | some group, some title =>
      if command.hidden then acc
      else acc ++ [{ id := command.id, title := title, highlightedTitle := none,
                     type := if command.dynamic then CommandType.commandDynamic
                             else CommandType.command,
                     group := group }]
    | _, _ => acc

/-- Model of `resolveCommands` from the source, as a fold over the registry. -/
def resolveCommands (registry : List RegistryCommand) : List Command :=
  registry.foldl resolveStep []

/-- Model of `getDefaultCommands` from the source: recency-cache entries followed by
the resolved registry. -/
def getDefaultCommands (store : List Command) (registry : List RegistryCommand) :
    List Command :=
  getRecentCommands store ++ resolveCommands registry

/-- Modelled from the spec: the `fuzzy` matcher imported from
`@notesnook/core` (not part of this excerpt), in the `matchOnly` mode used by
`commandSearch`. Per the spec, a candidate survives iff the query characters
occur in its title in order (subsequence-style), non-matching candidates are
dropped, and an empty prepared query matches every candidate with uniform
quality, preserving input order. The quality reordering for non-empty
queries is described only qualitatively ("earlier and more contiguous
matches rank higher") and is not modelled; every claim settled against this
model uses an empty prepared query, for which the spec requires the input
order to pass through unchanged. -/
def fuzzyMatchOnly (query : List Char) (candidates : List Command) : List Command :=
  candidates.filter (fun c => query.isSublist c.title.data)

/-- Model of `commandSearch` from the source: fuzzy match-only filtering of
`getDefaultCommands()` against the prepared query. -/
def commandSearch (query : List Char) (store : List Command)
    (registry : List RegistryCommand) : List Command :=
  fuzzyMatchOnly query (getDefaultCommands store registry)

/-! ## Grouper and sorter -/

/-- Insert a command into the first bucket whose head shares its group, else
open a new bucket at the end. This is the body of the non-recent branch of
the loop in `sortCommands`: `sortedWrtGroups.findIndex((c) => c[0].group ===
group)` followed by a push into the found bucket, or
`sortedWrtGroups.push([command])` when the index is `-1` — searching for the
first matching bucket recursively is the same computation. -/
def insertIntoBuckets (command : Command) : List (List Command) → List (List Command)
  | [] => [[command]]
  | b :: bs =>
    if b.head?.map Command.group == some command.group then (b ++ [command]) :: bs
    else b :: insertIntoBuckets command bs

/-- One iteration of the loop in `sortCommands`: `"recent"` commands go to
the `recent` list, all others into the group buckets. -/
def sortStep (st : List Command × List (List Command)) (command : Command) :
    List Command × List (List Command) :=
  if command.group = "recent" then (st.1 ++ [command], st.2)
  else (st.1, insertIntoBuckets command st.2)

/-- Model of `sortCommands` from the source: partition into the recent list and
first-seen-ordered group buckets, then `recent.concat(sortedWrtGroups.flat())`. -/
def sortCommands (commands : List Command) : List Command :=
  let st := commands.foldl sortStep ([], [])
  st.1 ++ st.2.flatten

/-- Increment the count of the first summary entry with the given group
(models `item.count++` on the entry returned by `acc.find`). -/
def incFirst (g : String) : List (String × Nat) → List (String × Nat)
  | [] => []
  | p :: ps => if p.1 = g then (p.1, p.2 + 1) :: ps else p :: incFirst g ps

/-- One step of the `grouped` reducer, keyed by a group label:
`acc.find((c) => c.group === command.group)` then `item.count++`, else
`acc.push({ group, count: 1 })`. -/
def groupedStepL (acc : List (String × Nat)) (g : String) : List (String × Nat) :=
  match acc.find? (fun p => p.1 == g) with
  | some _ => incFirst g acc
  | none => acc ++ [(g, 1)]

/-- One step of the `grouped` reducer from the source (it only reads
`command.group`). -/
def groupedStep (acc : List (String × Nat)) (command : Command) : List (String × Nat) :=
  groupedStepL acc command.group

/-- The `grouped` `useMemo` from the source: the displayed
`(group, count)` summary derived from the current command list. -/
def grouped (commands : List Command) : List (String × Nat) :=
  commands.foldl groupedStep []

/-- Replay a group summary: each `(group, count)` pair contributes `count`
consecutive copies of its label. -/
def replaySummary (summary : List (String × Nat)) : List String :=
  (summary.map (fun p => List.replicate p.2 p.1)).flatten

/-- Total of the counts of a group summary. -/
def sumCounts (summary : List (String × Nat)) : Nat :=
  (summary.map Prod.snd).sum

/-- The group label of a bucket (its first element's group; `""` only for the
empty bucket, which `sortCommands` never produces). -/
def headGroup (b : List Command) : String :=
  match b with
  | [] => ""
  | c :: _ => c.group

/-- Invariant of the `sortCommands` fold state: recent entries all have group
`"recent"`; every bucket is non-empty, has a constant group equal to its
head's, is not the `"recent"` group, and bucket groups are pairwise
distinct. -/
def SortInv (st : List Command × List (List Command)) : Prop :=
  (∀ c ∈ st.1, c.group = "recent") ∧
  (∀ b ∈ st.2, b ≠ []) ∧
  (∀ b ∈ st.2, ∀ c ∈ b, c.group = headGroup b) ∧
  (st.2.map headGroup).Nodup ∧
  (∀ b ∈ st.2, headGroup b ≠ "recent")

/-- The run-length blocks a sorter state denotes: one `"recent"` block (when
non-empty) followed by one block per bucket. -/
def blocksOf (st : List Command × List (List Command)) : List (String × Nat) :=
  (if st.1.isEmpty then [] else [("recent", st.1.length)]) ++
    st.2.map (fun b => (headGroup b, b.length))

/-! ## Sample data for concrete witnesses -/

/-- Sample flattened list from the spec's end-to-end scenario: two `"recent"`
rows followed by a `"notes"` row. -/
def sampleCommands : List Command :=
  [{ id := "a", title := "A", type := CommandType.command, group := "recent" },
   { id := "b", title := "B", type := CommandType.command, group := "recent" },
   { id := "c", title := "C", type := CommandType.note, group := "notes" }]

/-- A registry of five visible entries and one hidden entry (the spec's
command-mode scenario). -/
def registrySix : List RegistryCommand :=
  [{ id := "c1", title := some "One", group := some "general", hidden := false,
     dynamic := false },
   { id := "c2", title := some "Two", group := some "general", hidden := false,
     dynamic := false },
   { id := "c3", title := some "Three", group := some "navigate", hidden := false,
     dynamic := true },
   { id := "c4", title := some "Four", group := some "navigate", hidden := true,
     dynamic := false },
   { id := "c5", title := some "Five", group := some "settings", hidden := false,
     dynamic := false },
   { id := "c6", title := some "Six", group := some "settings", hidden := false,
     dynamic := false }]

/-- The five visible entries of `registrySix`, resolved, in registry order. -/
def fiveVisible : List Command :=
  [{ id := "c1", title := "One", type := CommandType.command, group := "general" },
   { id := "c2", title := "Two", type := CommandType.command, group := "general" },
   { id := "c3", title := "Three", type := CommandType.commandDynamic,
     group := "navigate" },
   { id := "c5", title := "Five", type := CommandType.command, group := "settings" },
   { id := "c6", title := "Six", type := CommandType.command, group := "settings" }]

/-! ### Helper lemmas about the recency cache -/

theorem map_id_nodup_of_eraseP {p : Command → Bool} {s : List Command}
    (h : (s.map Command.id).Nodup) : ((s.eraseP p).map Command.id).Nodup :=
  h.sublist ((List.eraseP_sublist s).map Command.id)

theorem not_mem_eraseP_of_nodup {cid : String} {s : List Command}
    (h : (s.map Command.id).Nodup) :
    cid ∉ ((s.eraseP (fun c => c.id == cid)).map Command.id) := by
  induction s with
  | nil => simp [List.eraseP]
  | cons a t ih =>
    simp only [List.map_cons, List.nodup_cons] at h
    by_cases ha : a.id = cid
    · have he : List.eraseP (fun c => c.id == cid) (a :: t) = t :=
        List.eraseP_cons_of_pos (by simp [ha])
      rw [he, ← ha]
      exact h.1
    · have he : List.eraseP (fun c => c.id == cid) (a :: t)
          = a :: List.eraseP (fun c => c.id == cid) t :=
        List.eraseP_cons_of_neg (by simp [ha])
      rw [he]
      simp only [List.map_cons, List.mem_cons, not_or]
      exact ⟨fun hc => ha hc.symm, ih h.2⟩

/-- `addRecentCommand` preserves the capacity invariant. -/
theorem cacheInv_add (c : Command) (s : List Command) (h : cacheInv s) :
    cacheInv (addRecentCommand c s) := by
  unfold addRecentCommand
  by_cases hd : c.type = CommandType.commandDynamic
  · simpa [hd] using h
  · simp only [hd, if_false]
    set erased := (getRecentCommands s).eraseP (fun x => x.id == c.id) with herased
    set pushed := { c with highlightedTitle := none, group := "recent" } :: erased
      with hpushed
    have hnotmem : c.id ∉ (erased.map Command.id) := not_mem_eraseP_of_nodup h.2
    have hpnd : (pushed.map Command.id).Nodup := by
      simp only [hpushed, List.map_cons, List.nodup_cons]
      exact ⟨hnotmem, map_id_nodup_of_eraseP h.2⟩
    by_cases hl : pushed.length > 3
    · rw [if_pos hl]
      refine ⟨?_, hpnd.sublist ((List.take_sublist 3 pushed).map Command.id)⟩
      rw [List.length_take]
      exact Nat.min_le_left _ _
    · rw [if_neg hl]
      exact ⟨Nat.le_of_not_lt hl, hpnd⟩

/-- `removeRecentCommand` preserves the capacity invariant. -/
theorem cacheInv_remove (id : String) (s : List Command) (h : cacheInv s) :
    cacheInv (removeRecentCommand id s) :=
  ⟨le_trans (List.length_eraseP_le _) h.1, map_id_nodup_of_eraseP h.2⟩

theorem cacheInv_applyOps (ops : List CacheOp) (s : List Command) (h : cacheInv s) :
    cacheInv (applyOps ops s) := by
  induction ops generalizing s with
  | nil => exact h
  | cons op rest ih =>
    cases op with
    | add c => exact ih _ (cacheInv_add c s h)
    | remove id => exact ih _ (cacheInv_remove id s h)

end CommandPalette

namespace CommandPalette

/-! ## Claims C1 and C8 -/

/-- C1: starting from the empty recency cache, any sequence of `add`/`remove`
operations leaves the persisted list with at most 3 entries and no duplicate
ids; moreover an `add` of a non-dynamic command places the re-grouped entry at
the front (most-recent-first), and when the id is already present the entry is
moved there without growing the list (no duplicate is created). -/
theorem recency_cache_invariant :
    (∀ ops : List CacheOp, cacheInv (applyOps ops [])) ∧
    (∀ (c : Command) (s : List Command),
      c.type ≠ CommandType.commandDynamic → cacheInv s →
      (addRecentCommand c s).head? =
        some { c with highlightedTitle := none, group := "recent" } ∧
      (c.id ∈ s.map Command.id → (addRecentCommand c s).length = s.length) ∧
      cacheInv (addRecentCommand c s)) := by
  refine ⟨fun ops => cacheInv_applyOps ops [] ⟨by simp, by simp⟩, ?_⟩
  intro c s hdyn hinv
  refine ⟨?_, ?_, cacheInv_add c s hinv⟩
  · unfold addRecentCommand
    simp only [hdyn, if_false]
    split <;> rfl
  · intro hmem
    obtain ⟨a, ha, haid⟩ := List.mem_map.mp hmem
    have herase : ((getRecentCommands s).eraseP (fun x => x.id == c.id)).length
        = s.length - 1 :=
      List.length_eraseP_of_mem ha (by simp [haid])
    have hpos : 1 ≤ s.length := List.length_pos.mpr (by rintro rfl; cases ha)
    have h3 := hinv.1
    unfold addRecentCommand
    simp only [hdyn, if_false]
    have hnot : ¬ ({ c with highlightedTitle := none, group := "recent" } ::
        (getRecentCommands s).eraseP (fun x => x.id == c.id)).length > 3 := by
      simp only [List.length_cons, herase]
      omega
    rw [if_neg hnot]
    simp only [List.length_cons, herase]
    omega

/-- Witness for `recency_cache_invariant` at concrete inputs. -/
theorem recency_cache_invariant_witness :
    cacheInv (applyOps
      [CacheOp.add { id := "x", title := "T", type := CommandType.note, group := "g" },
       CacheOp.add { id := "y", title := "U", type := CommandType.note, group := "g" },
       CacheOp.add { id := "x", title := "T", type := CommandType.note, group := "g" }]
      []) ∧
    (addRecentCommand { id := "x", title := "T", type := CommandType.note, group := "g" }
        [{ id := "y", title := "U", type := CommandType.note, group := "recent" },
         { id := "x", title := "T", type := CommandType.note, group := "recent" }]).head? =
      some { id := "x", title := "T", highlightedTitle := none,
             type := CommandType.note, group := "recent" } := by
  have h := recency_cache_invariant
  refine ⟨h.1 _, ?_⟩
  have h2 := h.2 { id := "x", title := "T", type := CommandType.note, group := "g" }
      [{ id := "y", title := "U", type := CommandType.note, group := "recent" },
       { id := "x", title := "T", type := CommandType.note, group := "recent" }]
      (by decide) (by decide)
  exact h2.1

/-- C8: `addRecentCommand` on a command of type `dynamic-command` is a no-op:
the persisted store is returned entirely unchanged. -/
theorem add_dynamic_is_noop (c : Command) (store : List Command)
    (h : c.type = CommandType.commandDynamic) :
    addRecentCommand c store = store := by
  simp [addRecentCommand, h]

/-- Witness for `add_dynamic_is_noop` at a concrete input. -/
theorem add_dynamic_is_noop_witness :
    addRecentCommand
      { id := "d", title := "D", type := CommandType.commandDynamic, group := "g" }
      [{ id := "x", title := "T", type := CommandType.note, group := "recent" }] =
      [{ id := "x", title := "T", type := CommandType.note, group := "recent" }] :=
  add_dynamic_is_noop _ _ (by decide)

/-! ## Claims about the navigation state machine -/

/-- C2: on the empty flattened list the four arrow handlers are NOT no-ops:
each dereferences `commands[selected.y]` (which is `undefined`) and throws a
`TypeError` (modelled by `none`), while the guarded `Enter` handler really is
a no-op. This contradicts the claim that every event is a no-op with no
error. -/
theorem empty_list_navigation_throws :
    moveSelectionDown { x := 0, y := 0 } [] = none ∧
    moveSelectionUp { x := 0, y := 0 } [] = none ∧
    moveSelectionRight { x := 0, y := 0 } [] = none ∧
    moveSelectionLeft { x := 0, y := 0 } [] = none ∧
    activate { x := 0, y := 0 } [] [] =
      { newSelected := { x := 0, y := 0 }, newStore := [], newCommands := [],
        closePalette := false } := by
  decide

/-- C4: on a non-empty flattened list with the cursor on a valid row,
`MoveDown` moves to row `(row + 1) % N` and `MoveUp` to row
`(row - 1 + N) % N`; the column is preserved exactly when both the departing
and arriving rows have group `"recent"`, and is reset to 0 otherwise. -/
theorem move_down_up_row_arith (selected : Coords) (commands : List Command)
    (h : selected.y < commands.length) :
    moveSelectionDown selected commands =
      some { x := if commands[selected.y]?.map Command.group = some "recent" ∧
                     commands[(selected.y + 1) % commands.length]?.map
                       Command.group = some "recent"
                  then selected.x else 0,
             y := (selected.y + 1) % commands.length } ∧
    moveSelectionUp selected commands =
      some { x := if commands[selected.y]?.map Command.group = some "recent" ∧
                     commands[(selected.y + commands.length - 1) %
                       commands.length]?.map Command.group = some "recent"
                  then selected.x else 0,
             y := (selected.y + commands.length - 1) % commands.length } := by
  have hlen : 0 < commands.length := Nat.lt_of_le_of_lt (Nat.zero_le _) h
  have hnd : (selected.y + 1) % commands.length < commands.length :=
    Nat.mod_lt _ hlen
  have hnu : (selected.y + commands.length - 1) % commands.length < commands.length :=
    Nat.mod_lt _ hlen
  have hc : commands[selected.y]? = some commands[selected.y] :=
    List.getElem?_eq_getElem h
  have hcd : commands[(selected.y + 1) % commands.length]? =
      some commands[(selected.y + 1) % commands.length] :=
    List.getElem?_eq_getElem hnd
  have hcu : commands[(selected.y + commands.length - 1) % commands.length]? =
      some commands[(selected.y + commands.length - 1) % commands.length] :=
    List.getElem?_eq_getElem hnu
  constructor
  · unfold moveSelectionDown
    simp only [hc, hcd, Option.map_some]
    by_cases h1 : commands[selected.y].group = "recent" <;>
      by_cases h2 : commands[(selected.y + 1) % commands.length].group = "recent" <;>
      simp [h1, h2]
  · unfold moveSelectionUp
    simp only [hc, hcu, Option.map_some]
    by_cases h1 : commands[selected.y].group = "recent" <;>
      by_cases h2 : commands[(selected.y + commands.length - 1) %
        commands.length].group = "recent" <;>
      simp [h1, h2]

/-- Witness for `move_down_up_row_arith` on the spec's sample list. -/
theorem move_down_up_row_arith_witness :
    moveSelectionDown { x := 1, y := 0 } sampleCommands = some { x := 1, y := 1 } ∧
    moveSelectionUp { x := 1, y := 0 } sampleCommands = some { x := 0, y := 2 } := by
  have h := move_down_up_row_arith { x := 1, y := 0 } sampleCommands
    (by simp [sampleCommands])
  exact ⟨h.1.trans (by decide), h.2.trans (by decide)⟩

/-- C9: whenever the current row's command has a group other than `"recent"`,
`MoveRight` and `MoveLeft` return the cursor unchanged. -/
theorem move_right_left_identity (selected : Coords) (commands : List Command)
    (c : Command) (hc : commands[selected.y]? = some c)
    (hg : c.group ≠ "recent") :
    moveSelectionRight selected commands = some selected ∧
    moveSelectionLeft selected commands = some selected := by
  unfold moveSelectionRight moveSelectionLeft
  simp [hc, hg]

/-- Witness for `move_right_left_identity` on the spec's sample list. -/
theorem move_right_left_identity_witness :
    moveSelectionRight { x := 0, y := 2 } sampleCommands = some { x := 0, y := 2 } ∧
    moveSelectionLeft { x := 0, y := 2 } sampleCommands = some { x := 0, y := 2 } :=
  move_right_left_identity { x := 0, y := 2 } sampleCommands
    { id := "c", title := "C", type := CommandType.note, group := "notes" }
    (by decide) (by decide)

/-- C5: activating at column 1 on a `"recent"` row removes that command from
the recency store and from the live flattened list (a fresh filtered list),
resets the cursor to `(0, 0)` and does not close the palette; no entry with
the removed id survives in either the new list or (when the store had no
duplicate ids) the new store. -/
theorem activate_col1_removes_recent (selected : Coords)
    (commands store : List Command) (command : Command)
    (hc : commands[selected.y]? = some command)
    (hg : command.group = "recent") (hx : selected.x = 1)
    (hnd : (store.map Command.id).Nodup) :
    activate selected commands store =
      { newSelected := { x := 0, y := 0 }
        newStore := removeRecentCommand command.id store
        newCommands := commands.filter (fun c => c.id != command.id)
        closePalette := false } ∧
    (∀ c ∈ (activate selected commands store).newCommands, c.id ≠ command.id) ∧
    command.id ∉ ((activate selected commands store).newStore.map Command.id) := by
  have hact : activate selected commands store =
      { newSelected := { x := 0, y := 0 }
        newStore := removeRecentCommand command.id store
        newCommands := commands.filter (fun c => c.id != command.id)
        closePalette := false } := by
    unfold activate
    simp [hc, hx]
  refine ⟨hact, ?_, ?_⟩
  · intro c hcmem
    rw [hact] at hcmem
    simp only [List.mem_filter, bne_iff_ne, ne_eq] at hcmem
    exact hcmem.2
  · rw [hact]
    exact not_mem_eraseP_of_nodup hnd

/-! ## Claims about the source aggregator -/

/-- The fold inside `resolveCommands` never retains two commands with the
same id, whatever the accumulator. -/
theorem resolve_foldl_nodup (reg : List RegistryCommand) :
    ∀ acc : List Command, (acc.map Command.id).Nodup →
      ((reg.foldl resolveStep acc).map Command.id).Nodup := by
  induction reg with
  | nil => exact fun acc h => h
  | cons e rest ih =>
    intro acc h
    rw [List.foldl_cons]
    refine ih _ ?_
    unfold resolveStep
    cases hfind : acc.find? (fun c => c.id == e.id) with
    | some c => simp [hfind, h]
    | none =>
      have hne : e.id ∉ acc.map Command.id := by
        intro hmem
        obtain ⟨c, hc, hcid⟩ := List.mem_map.mp hmem
        exact absurd (by simp [hcid]) (List.find?_eq_none.mp hfind c hc)
      cases hgr : e.group with
      | none => simpa [hfind, hgr] using h
      | some g =>
        cases ht : e.title with
        | none => simpa [hfind, hgr, ht] using h
        | some t =>
          by_cases hh : e.hidden
          · simpa [hfind, hgr, ht, hh] using h
          · simp [hfind, hgr, ht, hh, List.nodup_append, h, hne]

/-- Every command retained by the fold inside `resolveCommands` comes from
the accumulator or from a registry entry that is visible and has a defined
group and title. -/
theorem resolve_foldl_mem (reg : List RegistryCommand) :
    ∀ acc : List Command, ∀ c ∈ reg.foldl resolveStep acc,
      c ∈ acc ∨ ∃ e ∈ reg, e.hidden = false ∧ e.group = some c.group ∧
        e.title = some c.title ∧ e.id = c.id := by
  induction reg with
  | nil => exact fun acc c hc => Or.inl hc
  | cons e rest ih =>
    intro acc c hc
    rw [List.foldl_cons] at hc
    rcases ih _ c hc with hacc | ⟨e2, he2, hprop⟩
    · unfold resolveStep at hacc
      cases hfind : acc.find? (fun x => x.id == e.id) with
      | some x => rw [hfind] at hacc; exact Or.inl (by simpa using hacc)
      | none =>
        rw [hfind] at hacc
        cases hgr : e.group with
        | none => rw [hgr] at hacc; exact Or.inl (by simpa using hacc)
        | some g =>
          cases ht : e.title with
          | none => rw [hgr, ht] at hacc; exact Or.inl (by simpa using hacc)
          | some t =>
            rw [hgr, ht] at hacc
            by_cases hh : e.hidden
            · simp only [hh, Option.isSome_none, Bool.false_eq_true, if_false,
                if_true] at hacc
              exact Or.inl hacc
            · simp only [hh, Option.isSome_none, Bool.false_eq_true, if_false,
                List.mem_append, List.mem_singleton] at hacc
              rcases hacc with hin | rfl
              · exact Or.inl hin
              · refine Or.inr ⟨e, List.mem_cons_self _ _, ?_⟩
                simp [hh, hgr, ht]
    · exact Or.inr ⟨e2, List.mem_cons_of_mem _ he2, hprop⟩

/-- An empty query matches every candidate: the fuzzy filter passes the list
through unchanged. -/
theorem fuzzyMatchOnly_nil (candidates : List Command) :
    fuzzyMatchOnly [] candidates = candidates := by
  unfold fuzzyMatchOnly
  induction candidates with
  | nil => rfl
  | cons c cs ih => simp [List.isSublist, ih]

/-- C6: in command mode, aggregation resolves the registry deduplicating by
id, keeps only visible entries with defined group and title, and with an
empty prepared query every candidate matches; concretely, the empty query
against `registrySix` (five visible entries, one hidden) returns exactly the
five visible entries in registry order. -/
theorem command_mode_aggregation :
    (∀ registry : List RegistryCommand,
      ((resolveCommands registry).map Command.id).Nodup) ∧
    (∀ registry : List RegistryCommand, ∀ c ∈ resolveCommands registry,
      ∃ e ∈ registry, e.hidden = false ∧ e.group = some c.group ∧
        e.title = some c.title ∧ e.id = c.id) ∧
    (∀ (store : List Command) (registry : List RegistryCommand),
      commandSearch [] store registry = getDefaultCommands store registry) ∧
    commandSearch [] [] registrySix = fiveVisible := by
  refine ⟨fun registry => resolve_foldl_nodup registry [] (by simp), ?_, ?_, ?_⟩
  · intro registry c hc
    rcases resolve_foldl_mem registry [] c hc with h | h
    · cases h
    · exact h
  · intro store registry
    exact fuzzyMatchOnly_nil _
  · rw [commandSearch, fuzzyMatchOnly_nil]
    decide

/-- Witness for `command_mode_aggregation` at concrete inputs. -/
theorem command_mode_aggregation_witness :
    ((resolveCommands registrySix).map Command.id).Nodup ∧
    (∃ e ∈ registrySix, e.hidden = false ∧ e.group = some "general" ∧
      e.title = some "One" ∧ e.id = "c1") := by
  have h := command_mode_aggregation
  refine ⟨h.1 registrySix, ?_⟩
  have hm := h.2.1 registrySix
    { id := "c1", title := "One", type := CommandType.command, group := "general" }
    (by decide)
  exact hm

/-- C10: deduplication in `resolveCommands` only considers retained entries:
when the first registry entry with an id is excluded (hidden, or with
undefined group or title) and a later entry with the same id is visible with
defined group and title, the later entry is included. -/
theorem dedup_considers_only_retained (e1 e2 : RegistryCommand) (g t : String)
    (hid : e1.id = e2.id)
    (hexcl : e1.hidden = true ∨ e1.group = none ∨ e1.title = none)
    (h2h : e2.hidden = false) (h2g : e2.group = some g) (h2t : e2.title = some t) :
    resolveCommands [e1, e2] =
      [{ id := e2.id, title := t, highlightedTitle := none,
         type := if e2.dynamic then CommandType.commandDynamic
                 else CommandType.command,
         group := g }] := by
  have h1 : resolveStep [] e1 = [] := by
    unfold resolveStep
    rcases hexcl with hh | hg1 | ht1
    · cases hgr : e1.group <;> cases htt : e1.title <;> simp [hh]
    · simp [hg1]
    · cases hgr : e1.group <;> simp [ht1]
  show resolveStep (resolveStep [] e1) e2 = _
  rw [h1]
  unfold resolveStep
  simp [h2g, h2t, h2h]

/-- Witness for `dedup_considers_only_retained` at concrete entries. -/
theorem dedup_considers_only_retained_witness :
    resolveCommands
      [{ id := "dup", title := some "Hidden first", group := some "g1",
         hidden := true, dynamic := false },
       { id := "dup", title := some "Visible second", group := some "g2",
         hidden := false, dynamic := false }] =
      [{ id := "dup", title := "Visible second", highlightedTitle := none,
         type := CommandType.command, group := "g2" }] := by
  have h := dedup_considers_only_retained
    { id := "dup", title := some "Hidden first", group := some "g1",
      hidden := true, dynamic := false }
    { id := "dup", title := some "Visible second", group := some "g2",
      hidden := false, dynamic := false }
    "g2" "Visible second" rfl (Or.inl rfl) rfl rfl rfl
  exact h.trans (by decide)

/-- Witness for `activate_col1_removes_recent` on the spec's sample list. -/
theorem activate_col1_removes_recent_witness :
    activate { x := 1, y := 0 } sampleCommands
        [{ id := "a", title := "A", type := CommandType.command, group := "recent" }] =
      { newSelected := { x := 0, y := 0 }
        newStore := []
        newCommands :=
          [{ id := "b", title := "B", type := CommandType.command, group := "recent" },
           { id := "c", title := "C", type := CommandType.note, group := "notes" }]
        closePalette := false } := by
  have h := activate_col1_removes_recent { x := 1, y := 0 } sampleCommands
    [{ id := "a", title := "A", type := CommandType.command, group := "recent" }]
    { id := "a", title := "A", type := CommandType.command, group := "recent" }
    (by decide) (by decide) (by decide) (by decide)
  exact h.1.trans (by decide)

/-! ## Claim C7: the query classifier -/

/-- C7: a raw query is classified as command mode exactly when it starts
with the sentinel character; the prepared query strips exactly one leading
sentinel when present and then trims surrounding whitespace, and otherwise
just trims; classification is a total function, so it never fails. -/
theorem classify_spec :
    (∀ query : List Char,
      isCommandMode query = true ↔ ∃ rest, query = '>' :: rest) ∧
    (∀ rest : List Char, prepareQuery ('>' :: rest) = jsTrim rest) ∧
    (∀ query : List Char, (¬ ∃ rest, query = '>' :: rest) →
      prepareQuery query = jsTrim query) := by
  refine ⟨?_, ?_, ?_⟩
  · intro q
    constructor
    · intro h
      cases q with
      | nil => simp [isCommandMode] at h
      | cons a t =>
        simp only [isCommandMode, List.head?_cons, Option.some.injEq,
          decide_eq_true_eq] at h
        exact ⟨t, by rw [h]⟩
    · rintro ⟨rest, rfl⟩
      simp [isCommandMode]
  · intro rest
    unfold prepareQuery
    rw [if_pos (show isCommandMode ('>' :: rest) = true by simp [isCommandMode])]
    rfl
  · intro q hq
    have hcm : ¬ (isCommandMode q = true) := by
      intro h
      cases q with
      | nil => simp [isCommandMode] at h
      | cons a t =>
        simp only [isCommandMode, List.head?_cons, Option.some.injEq,
          decide_eq_true_eq] at h
        exact hq ⟨t, by rw [h]⟩
    unfold prepareQuery
    rw [if_neg hcm]

/-- Witness for `classify_spec` at concrete queries. -/
theorem classify_spec_witness :
    prepareQuery ('>' :: ' ' :: 'a' :: []) = jsTrim (' ' :: 'a' :: []) ∧
    prepareQuery ('a' :: 'b' :: []) = jsTrim ('a' :: 'b' :: []) := by
  have h := classify_spec
  refine ⟨h.2.1 (' ' :: 'a' :: []), h.2.2 ('a' :: 'b' :: []) ?_⟩
  rintro ⟨rest, h'⟩
  simp at h'

/-! ## Claim C3: the group summary is the run-length encoding -/

theorem find?_label_none {g : String} {acc : List (String × Nat)}
    (h : g ∉ acc.map Prod.fst) :
    acc.find? (fun p => p.1 == g) = none := by
  rw [List.find?_eq_none]
  intro p hp hpg
  exact h (List.mem_map.mpr ⟨p, hp, by simpa using hpg⟩)

theorem find?_label_append_isSome (g : String) (k : Nat)
    (acc : List (String × Nat)) :
    ((acc ++ [(g, k)]).find? (fun p => p.1 == g)).isSome := by
  rw [List.find?_isSome]
  exact ⟨(g, k), by simp⟩

theorem incFirst_append_singleton (g : String) (k : Nat)
    (acc : List (String × Nat)) (h : g ∉ acc.map Prod.fst) :
    incFirst g (acc ++ [(g, k)]) = acc ++ [(g, k + 1)] := by
  induction acc with
  | nil => simp [incFirst]
  | cons p ps ih =>
    simp only [List.map_cons, List.mem_cons, not_or] at h
    have hne : ¬ p.1 = g := fun h' => h.1 h'.symm
    simp only [List.cons_append, incFirst, if_neg hne, List.append_eq]
    rw [ih h.2]

theorem foldl_groupedStepL_replicate (g : String) (n : Nat) :
    ∀ (k : Nat) (acc : List (String × Nat)), g ∉ acc.map Prod.fst →
      List.foldl groupedStepL (acc ++ [(g, k)]) (List.replicate n g) =
        acc ++ [(g, k + n)] := by
  induction n with
  | zero => intro k acc _; simp
  | succ m ih =>
    intro k acc h
    rw [List.replicate_succ, List.foldl_cons]
    have hstep : groupedStepL (acc ++ [(g, k)]) g = acc ++ [(g, k + 1)] := by
      unfold groupedStepL
      obtain ⟨p, hp⟩ := Option.isSome_iff_exists.mp (find?_label_append_isSome g k acc)
      rw [hp]
      exact incFirst_append_singleton g k acc h
    rw [hstep, ih (k + 1) acc h]
    have heq : k + 1 + m = k + (m + 1) := by omega
    rw [heq]

theorem foldl_groupedStepL_block (g : String) (n : Nat) (hn : 1 ≤ n)
    (acc : List (String × Nat)) (h : g ∉ acc.map Prod.fst) :
    List.foldl groupedStepL acc (List.replicate n g) = acc ++ [(g, n)] := by
  obtain ⟨m, rfl⟩ : ∃ m, n = m + 1 := ⟨n - 1, by omega⟩
  rw [List.replicate_succ, List.foldl_cons]
  have hstep : groupedStepL acc g = acc ++ [(g, 1)] := by
    unfold groupedStepL
    rw [find?_label_none h]
  rw [hstep, foldl_groupedStepL_replicate g m 1 acc h]
  have heq : 1 + m = m + 1 := by omega
  rw [heq]

theorem replaySummary_cons (p : String × Nat) (rest : List (String × Nat)) :
    replaySummary (p :: rest) = List.replicate p.2 p.1 ++ replaySummary rest := by
  simp [replaySummary]

theorem length_replaySummary (s : List (String × Nat)) :
    (replaySummary s).length = sumCounts s := by
  induction s with
  | nil => rfl
  | cons p rest ih =>
    rw [replaySummary_cons]
    simp only [List.length_append, List.length_replicate, sumCounts, List.map_cons,
      List.sum_cons]
    simp only [sumCounts] at ih
    omega

theorem foldl_groupedStepL_blocks (blocks : List (String × Nat)) :
    ∀ acc : List (String × Nat),
      (∀ p ∈ blocks, 1 ≤ p.2) →
      (acc.map Prod.fst ++ blocks.map Prod.fst).Nodup →
      List.foldl groupedStepL acc (replaySummary blocks) = acc ++ blocks := by
  induction blocks with
  | nil => intro acc _ _; simp [replaySummary]
  | cons p rest ih =>
    intro acc hcounts hnd
    obtain ⟨g, n⟩ := p
    rw [replaySummary_cons, List.foldl_append]
    have hnd' : (acc.map Prod.fst ++ (g :: rest.map Prod.fst)).Nodup := by
      simpa using hnd
    have hg : g ∉ acc.map Prod.fst := by
      have hdisj := (List.nodup_append.mp hnd').2.2
      intro hmem
      exact hdisj hmem (List.mem_cons_self _ _)
    rw [foldl_groupedStepL_block g n (hcounts (g, n) (List.mem_cons_self _ _)) acc hg]
    have hnd2 : ((acc ++ [(g, n)]).map Prod.fst ++ rest.map Prod.fst).Nodup := by
      simp only [List.map_append, List.map_cons, List.map_nil, List.append_assoc,
        List.singleton_append]
      simpa using hnd'
    rw [ih (acc ++ [(g, n)]) (fun q hq => hcounts q (List.mem_cons_of_mem _ hq)) hnd2]
    simp

theorem grouped_eq_foldl_labels (commands : List Command) :
    grouped commands = List.foldl groupedStepL [] (commands.map Command.group) := by
  rw [grouped, List.foldl_map]
  rfl

theorem replaySummary_append (a b : List (String × Nat)) :
    replaySummary (a ++ b) = replaySummary a ++ replaySummary b := by
  simp [replaySummary]

theorem headGroup_append (b : List Command) (hb : b ≠ []) (l : List Command) :
    headGroup (b ++ l) = headGroup b := by
  cases b with
  | nil => exact absurd rfl hb
  | cons x xs => rfl

theorem insertIntoBuckets_props (c : Command) (hgr : c.group ≠ "recent") :
    ∀ bs : List (List Command),
      (∀ b ∈ bs, b ≠ []) →
      (∀ b ∈ bs, ∀ x ∈ b, x.group = headGroup b) →
      (∀ b ∈ bs, headGroup b ≠ "recent") →
      (∀ b ∈ insertIntoBuckets c bs, b ≠ []) ∧
      (∀ b ∈ insertIntoBuckets c bs, ∀ x ∈ b, x.group = headGroup b) ∧
      (∀ b ∈ insertIntoBuckets c bs, headGroup b ≠ "recent") := by
  intro bs
  induction bs with
  | nil =>
    intro _ _ _
    refine ⟨?_, ?_, ?_⟩ <;> intro b hb <;>
      simp only [insertIntoBuckets, List.mem_singleton] at hb <;> subst hb
    · simp
    · intro x hx
      simp only [List.mem_singleton] at hx
      subst hx
      rfl
    · simpa [headGroup] using hgr
  | cons b rest ih =>
    intro hne hconst hrec
    have hbne : b ≠ [] := hne b (List.mem_cons_self _ _)
    obtain ⟨x, xs, rfl⟩ : ∃ x xs, b = x :: xs := by
      cases b with
      | nil => exact absurd rfl hbne
      | cons x xs => exact ⟨x, xs, rfl⟩
    have hne' : ∀ b ∈ rest, b ≠ [] := fun b hb => hne b (List.mem_cons_of_mem _ hb)
    have hconst' : ∀ b ∈ rest, ∀ y ∈ b, y.group = headGroup b :=
      fun b hb => hconst b (List.mem_cons_of_mem _ hb)
    have hrec' : ∀ b ∈ rest, headGroup b ≠ "recent" :=
      fun b hb => hrec b (List.mem_cons_of_mem _ hb)
    by_cases hm : x.group = c.group
    · have hcond : (((x :: xs).head?.map Command.group) == some c.group) = true := by
        simp [hm]
      unfold insertIntoBuckets
      rw [if_pos hcond]
      have hhead : headGroup ((x :: xs) ++ [c]) = x.group := rfl
      refine ⟨?_, ?_, ?_⟩ <;> intro b' hb' <;>
        rcases List.mem_cons.mp hb' with rfl | hb'
      · simp
      · exact hne' b' hb'
      · intro y hy
        rw [hhead]
        rcases List.mem_append.mp hy with hy | hy
        · exact hconst (x :: xs) (List.mem_cons_self _ _) y hy
        · simp only [List.mem_singleton] at hy
          subst hy
          exact hm.symm ▸ rfl
      · exact hconst' b' hb'
      · rw [hhead]
        exact hrec (x :: xs) (List.mem_cons_self _ _)
      · exact hrec' b' hb'
    · have hcond : ¬ ((((x :: xs).head?.map Command.group) == some c.group) = true) := by
        simp [hm]
      unfold insertIntoBuckets
      rw [if_neg hcond]
      obtain ⟨i1, i2, i3⟩ := ih hne' hconst' hrec'
      refine ⟨?_, ?_, ?_⟩ <;> intro b' hb' <;>
        rcases List.mem_cons.mp hb' with rfl | hb'
      · exact hbne
      · exact i1 b' hb'
      · exact hconst (x :: xs) (List.mem_cons_self _ _)
      · exact i2 b' hb'
      · exact hrec (x :: xs) (List.mem_cons_self _ _)
      · exact i3 b' hb'

theorem insertIntoBuckets_labels (c : Command) :
    ∀ bs : List (List Command), (∀ b ∈ bs, b ≠ []) →
      (c.group ∈ bs.map headGroup ∧
        (insertIntoBuckets c bs).map headGroup = bs.map headGroup) ∨
      (c.group ∉ bs.map headGroup ∧
        (insertIntoBuckets c bs).map headGroup = bs.map headGroup ++ [c.group]) := by
  intro bs
  induction bs with
  | nil =>
    intro _
    right
    simp [insertIntoBuckets, headGroup]
  | cons b rest ih =>
    intro hne
    have hbne : b ≠ [] := hne b (List.mem_cons_self _ _)
    obtain ⟨x, xs, rfl⟩ : ∃ x xs, b = x :: xs := by
      cases b with
      | nil => exact absurd rfl hbne
      | cons x xs => exact ⟨x, xs, rfl⟩
    by_cases hm : x.group = c.group
    · left
      have hcond : (((x :: xs).head?.map Command.group) == some c.group) = true := by
        simp [hm]
      constructor
      · simp only [List.map_cons, List.mem_cons]
        exact Or.inl (show c.group = headGroup (x :: xs) from hm.symm)
      · unfold insertIntoBuckets
        rw [if_pos hcond]
        simp only [List.map_cons]
        rfl
    · have hcond : ¬ ((((x :: xs).head?.map Command.group) == some c.group) = true) := by
        simp [hm]
      unfold insertIntoBuckets
      rw [if_neg hcond]
      rcases ih (fun b hb => hne b (List.mem_cons_of_mem _ hb)) with
        ⟨hmem, heq⟩ | ⟨hmem, heq⟩
      · left
        exact ⟨List.mem_cons_of_mem _ hmem, by simp only [List.map_cons, heq]⟩
      · right
        constructor
        · simp only [List.map_cons, List.mem_cons, not_or]
          exact ⟨fun h' => hm (show x.group = c.group from h'.symm), hmem⟩
        · simp only [List.map_cons, heq, List.cons_append]

theorem sortInv_sortStep (st : List Command × List (List Command)) (c : Command)
    (h : SortInv st) : SortInv (sortStep st c) := by
  unfold SortInv at h
  obtain ⟨h1, h2, h3, h4, h5⟩ := h
  unfold SortInv sortStep
  by_cases hg : c.group = "recent"
  · rw [if_pos hg]
    refine ⟨?_, h2, h3, h4, h5⟩
    intro x hx
    rcases List.mem_append.mp hx with hx | hx
    · exact h1 x hx
    · simp only [List.mem_singleton] at hx
      subst hx
      exact hg
  · rw [if_neg hg]
    obtain ⟨i1, i2, i3⟩ := insertIntoBuckets_props c hg st.2 h2 h3 h5
    refine ⟨h1, i1, i2, ?_, i3⟩
    rcases insertIntoBuckets_labels c st.2 h2 with ⟨hmem, heq⟩ | ⟨hmem, heq⟩
    · rwa [heq]
    · rw [heq, List.nodup_append]
      refine ⟨h4, List.nodup_singleton _, ?_⟩
      intro a ha hb
      simp only [List.mem_singleton] at hb
      subst hb
      exact hmem ha

theorem sortInv_foldl (commands : List Command) :
    ∀ st, SortInv st → SortInv (commands.foldl sortStep st) := by
  induction commands with
  | nil => exact fun st h => h
  | cons c rest ih =>
    intro st h
    rw [List.foldl_cons]
    exact ih _ (sortInv_sortStep st c h)

theorem flatten_map_group (bs : List (List Command))
    (hconst : ∀ b ∈ bs, ∀ x ∈ b, x.group = headGroup b) :
    bs.flatten.map Command.group =
      replaySummary (bs.map fun b => (headGroup b, b.length)) := by
  induction bs with
  | nil => rfl
  | cons b rest ih =>
    rw [List.flatten_cons, List.map_append, List.map_cons, replaySummary_cons]
    rw [ih (fun b' hb' => hconst b' (List.mem_cons_of_mem _ hb'))]
    congr 1
    apply List.eq_replicate_iff.mpr
    refine ⟨by simp, ?_⟩
    intro g hg
    obtain ⟨x, hx, rfl⟩ := List.mem_map.mp hg
    exact hconst b (List.mem_cons_self _ _) x hx

theorem map_group_eq_replay (st : List Command × List (List Command))
    (h : SortInv st) :
    (st.1 ++ st.2.flatten).map Command.group = replaySummary (blocksOf st) := by
  unfold SortInv at h
  obtain ⟨h1, h2, h3, h4, h5⟩ := h
  rw [List.map_append, blocksOf, replaySummary_append, flatten_map_group st.2 h3]
  congr 1
  by_cases he : st.1.isEmpty
  · rw [if_pos he]
    have hn : st.1 = [] := List.isEmpty_iff.mp he
    simp [hn, replaySummary]
  · rw [if_neg he]
    have hrepl : replaySummary [("recent", st.1.length)] =
        List.replicate st.1.length "recent" := by
      simp [replaySummary]
    rw [hrepl]
    apply List.eq_replicate_iff.mpr
    refine ⟨by simp, ?_⟩
    intro g hg
    obtain ⟨x, hx, rfl⟩ := List.mem_map.mp hg
    exact h1 x hx

theorem blocksOf_counts (st : List Command × List (List Command))
    (h : SortInv st) : ∀ p ∈ blocksOf st, 1 ≤ p.2 := by
  unfold SortInv at h
  obtain ⟨_, h2, _, _, _⟩ := h
  intro p hp
  unfold blocksOf at hp
  rcases List.mem_append.mp hp with hp | hp
  · by_cases he : st.1.isEmpty
    · rw [if_pos he] at hp
      cases hp
    · rw [if_neg he] at hp
      simp only [List.mem_singleton] at hp
      subst hp
      have hn : st.1 ≠ [] := fun hnil => he (List.isEmpty_iff.mpr hnil)
      exact List.length_pos.mpr hn
  · obtain ⟨b, hb, rfl⟩ := List.mem_map.mp hp
    exact List.length_pos.mpr (h2 b hb)

theorem blocksOf_fst_nodup (st : List Command × List (List Command))
    (h : SortInv st) : ((blocksOf st).map Prod.fst).Nodup := by
  unfold SortInv at h
  obtain ⟨_, _, _, h4, h5⟩ := h
  unfold blocksOf
  have hm : (st.2.map (fun b => (headGroup b, b.length))).map Prod.fst =
      st.2.map headGroup := by
    simp only [List.map_map]
    rfl
  by_cases he : st.1.isEmpty
  · rw [if_pos he]
    rw [List.nil_append, hm]
    exact h4
  · rw [if_neg he, List.map_append, hm]
    simp only [List.map_cons, List.map_nil, List.singleton_append]
    refine List.nodup_cons.mpr ⟨?_, h4⟩
    intro hmem
    obtain ⟨b, hb, hbeq⟩ := List.mem_map.mp hmem
    exact h5 b hb hbeq

/-- C3: for every flattened list produced by the sorter, the derived group
summary is the run-length encoding of the entries' group labels: the counts
sum to the list's length, and replaying each pair's count consecutive labels
reproduces every entry's group label exactly once, in order. -/
theorem grouped_is_run_length (cs : List Command) :
    sumCounts (grouped (sortCommands cs)) = (sortCommands cs).length ∧
    replaySummary (grouped (sortCommands cs)) =
      (sortCommands cs).map Command.group := by
  have hinv : SortInv (cs.foldl sortStep ([], [])) := by
    apply sortInv_foldl
    unfold SortInv
    refine ⟨?_, ?_, ?_, ?_, ?_⟩ <;> simp
  have hshape : (sortCommands cs).map Command.group =
      replaySummary (blocksOf (cs.foldl sortStep ([], []))) :=
    map_group_eq_replay _ hinv
  have hfold : grouped (sortCommands cs) = blocksOf (cs.foldl sortStep ([], [])) := by
    rw [grouped_eq_foldl_labels, hshape]
    have h := foldl_groupedStepL_blocks (blocksOf (cs.foldl sortStep ([], []))) []
      (blocksOf_counts _ hinv) (by simpa using blocksOf_fst_nodup _ hinv)
    simpa using h
  refine ⟨?_, by rw [hfold, ← hshape]⟩
  calc sumCounts (grouped (sortCommands cs))
      = (replaySummary (grouped (sortCommands cs))).length :=
        (length_replaySummary _).symm
    _ = ((sortCommands cs).map Command.group).length := by rw [hfold, ← hshape]
    _ = (sortCommands cs).length := by simp

end CommandPalette
